import Mathlib

/-!
Verification of the host-side logic of `examples/mainSift.cpp` (CudaSift).

The development shallowly embeds the three pieces of host code that the
specification describes:

* the round-robin slot selection of the multithreaded benchmark loop
  (`ctr++ % i` in `main`),
* the correspondence evaluator `MatchAll` (homography overwrite, projection,
  squared geometric error, threshold classification, diagnostic rows),
* the overlay renderer `PrintMatchData` (match-line drawing and the two-pass
  square markers).

Float values are modelled as exact rationals; the IEEE-754 special values
(+inf, -inf, NaN) that arise from the unguarded division by the homogeneous
denominator are modelled explicitly by the `EFloat` type, whose operations
follow the IEEE rules on specials (the sign of a floating-point zero is
abstracted to +0, and finite arithmetic is exact rather than rounded).
-/

set_option autoImplicit false

/-- C-style cast from a rational to an integer: truncation toward zero,
as `(int)x` behaves in C++ for in-range values. -/
def ratTrunc (q : ℚ) : ℤ :=
  if 0 ≤ q then ⌊q⌋ else -⌊-q⌋

/-- A floating-point value: an exact finite rational, one of the two
infinities, or NaN.  Finite arithmetic is exact (rounding abstracted);
operations on specials follow IEEE 754. -/
inductive EFloat where
  | fin : ℚ → EFloat
  | inf : EFloat
  | ninf : EFloat
  | nan : EFloat
deriving DecidableEq

/-- IEEE addition on `EFloat` (finite part exact). -/
def EFloat.add : EFloat → EFloat → EFloat
  | nan, _ => nan
  | _, nan => nan
  | inf, ninf => nan
  | ninf, inf => nan
  | inf, _ => inf
  | _, inf => inf
  | ninf, _ => ninf
  | _, ninf => ninf
  | fin a, fin b => fin (a + b)

/-- IEEE negation on `EFloat`. -/
def EFloat.neg : EFloat → EFloat
  | nan => nan
  | inf => ninf
  | ninf => inf
  | fin a => fin (-a)

/-- IEEE subtraction on `EFloat`. -/
def EFloat.sub (x y : EFloat) : EFloat := x.add y.neg

/-- IEEE multiplication on `EFloat` (finite part exact). -/
def EFloat.mul : EFloat → EFloat → EFloat
  | nan, _ => nan
  | _, nan => nan
  | inf, inf => inf
  | inf, ninf => ninf
  | ninf, inf => ninf
  | ninf, ninf => inf
  | inf, fin b => if b = 0 then nan else if 0 < b then inf else ninf
  | fin a, inf => if a = 0 then nan else if 0 < a then inf else ninf
  | ninf, fin b => if b = 0 then nan else if 0 < b then ninf else inf
  | fin a, ninf => if a = 0 then nan else if 0 < a then ninf else inf
  | fin a, fin b => fin (a * b)

/-- IEEE division on `EFloat` (finite part exact; a finite zero is treated
as +0, so `c / 0 = +inf` for `c > 0`, `-inf` for `c < 0`, NaN for `c = 0`). -/
def EFloat.div : EFloat → EFloat → EFloat
  | nan, _ => nan
  | _, nan => nan
  | inf, inf => nan
  | inf, ninf => nan
  | ninf, inf => nan
  | ninf, ninf => nan
  | inf, fin b => if 0 ≤ b then inf else ninf
  | ninf, fin b => if 0 ≤ b then ninf else inf
  | fin _, inf => fin 0
  | fin _, ninf => fin 0
  | fin a, fin b =>
    if b = 0 then (if a = 0 then nan else if 0 < a then inf else ninf)
    else fin (a / b)

/-- IEEE `<` comparison on `EFloat`: any comparison with NaN is false. -/
def EFloat.lt : EFloat → EFloat → Bool
  | nan, _ => false
  | _, nan => false
  | fin a, fin b => decide (a < b)
  | fin _, inf => true
  | inf, _ => false
  | ninf, ninf => false
  | ninf, _ => true
  | _, ninf => false

/-- The fields of `SiftPoint` that the host code in `mainSift.cpp` reads.
Positions, scale, orientation, scores and the 128-float descriptor are
modelled as exact rationals; `matchIdx` models the `match` field (an `int`
index into the other feature set, negative when unmatched). -/
structure SiftPt where
  xpos : ℚ
  ypos : ℚ
  scale : ℚ
  orientData : ℚ
  score : ℚ
  ambiguity : ℚ
  matchIdx : ℤ
  matchError : ℚ
  descr : ℕ → ℚ

/-- `MatchAll`: the homogeneous denominator
`den = homography[6]*xpos + homography[7]*ypos + homography[8]`. -/
def denomQ (h : Fin 9 → ℚ) (ax ay : ℚ) : ℚ :=
  h 6 * ax + h 7 * ay + h 8

/-- `MatchAll`: the projected x coordinate
`(homography[0]*xpos + homography[1]*ypos + homography[2]) / den`,
computed in floating point (division by a zero denominator produces an
IEEE special value). -/
def projXq (h : Fin 9 → ℚ) (ax ay : ℚ) : EFloat :=
  EFloat.div (EFloat.fin (h 0 * ax + h 1 * ay + h 2)) (EFloat.fin (denomQ h ax ay))

/-- `MatchAll`: the projected y coordinate
`(homography[3]*xpos + homography[4]*ypos + homography[5]) / den`. -/
def projYq (h : Fin 9 → ℚ) (ax ay : ℚ) : EFloat :=
  EFloat.div (EFloat.fin (h 3 * ax + h 4 * ay + h 5)) (EFloat.fin (denomQ h ax ay))

/-- `MatchAll`: squared geometric error
`err = dx*dx + dy*dy` with `dx = projX - sift2[j].xpos`,
`dy = projY - sift2[j].ypos`. -/
def pairErr (h : Fin 9 → ℚ) (a b : SiftPt) : EFloat :=
  let dx := EFloat.sub (projXq h a.xpos a.ypos) (EFloat.fin b.xpos)
  let dy := EFloat.sub (projYq h a.xpos a.ypos) (EFloat.fin b.ypos)
  EFloat.add (EFloat.mul dx dx) (EFloat.mul dy dy)

/-- `MatchAll`: descriptor similarity
`sum = Σ_{k<128} data1[k]*data2[k]`, accumulated left to right. -/
def dotProd (a b : SiftPt) : ℚ :=
  (List.range 128).foldl (fun s k => s + a.descr k * b.descr k) 0

/-- The per-pair console annotation `MatchAll` prints: `" *"`, `" -"`,
`" +"` or blank. -/
inductive Ann where
  | star : Ann
  | dash : Ann
  | plus : Ann
  | blank : Ann
deriving DecidableEq

/-- The annotation branch chain of `MatchAll`:
star when `j == match && err < 100`, dash when only `j == match`,
plus when only `err < 100`, blank otherwise. -/
def annMark (matchIdx : ℤ) (j : ℕ) (e : EFloat) : Ann :=
  if (j : ℤ) = matchIdx ∧ EFloat.lt e (EFloat.fin 100) = true then Ann.star
  else if (j : ℤ) = matchIdx then Ann.dash
  else if EFloat.lt e (EFloat.fin 100) = true then Ann.plus
  else Ann.blank

/-- Inner loop of `MatchAll` over `sift2`, carrying the running index `j`:
the annotation computed for every candidate `j`. -/
def annRowAux (h : Fin 9 → ℚ) (a : SiftPt) : ℕ → List SiftPt → List Ann
  | _, [] => []
  | j, b :: bs => annMark a.matchIdx j (pairErr h a b) :: annRowAux h a (j + 1) bs

/-- The annotations `MatchAll` computes for one point of `sift1` against
every point of `sift2` (indices starting at 0). -/
def annRow (h : Fin 9 → ℚ) (a : SiftPt) (B : List SiftPt) : List Ann :=
  annRowAux h a 0 B

/-- Inner loop of `MatchAll` restricted to the candidate lines actually
printed: those with `err < 100 || j == match`.  Each printed cell carries
the candidate index, the descriptor similarity and the squared error. -/
def printedRowAux (h : Fin 9 → ℚ) (a : SiftPt) : ℕ → List SiftPt → List (ℕ × ℚ × EFloat)
  | _, [] => []
  | j, b :: bs =>
    if EFloat.lt (pairErr h a b) (EFloat.fin 100) || decide ((j : ℤ) = a.matchIdx) then
      (j, dotProd a b, pairErr h a b) :: printedRowAux h a (j + 1) bs
    else printedRowAux h a (j + 1) bs

/-- The candidate lines `MatchAll` prints for one point of `sift1`. -/
def printedRow (h : Fin 9 → ℚ) (a : SiftPt) (B : List SiftPt) : List (ℕ × ℚ × EFloat) :=
  printedRowAux h a 0 B

/-- `MatchAll`'s per-point `found` flag: some candidate has `err < 100`. -/
def foundPt (h : Fin 9 → ℚ) (a : SiftPt) (B : List SiftPt) : Bool :=
  B.any (fun b => EFloat.lt (pairErr h a b) (EFloat.fin 100))

/-- The unconditional overwrite `MatchAll` performs on the caller's
homography before the loops: coefficients 0..7 are set to the fixed frame
`(-1, 0, 1279, 0, -1, 959, 0, 0)` and only coefficient 8 keeps the value
passed in. -/
def matchAllSetHomography (h : Fin 9 → ℚ) : Fin 9 → ℚ := fun i =>
  if i = 0 then -1
  else if i = 1 then 0
  else if i = 2 then 1279
  else if i = 3 then 0
  else if i = 4 then -1
  else if i = 5 then 959
  else if i = 6 then 0
  else if i = 7 then 0
  else h 8

/-- The full evaluation `MatchAll` performs with a given (already frozen)
homography: the printed candidate rows for every point of `sift1`, and
`numFound`, the number of points with some candidate under the threshold. -/
def matchAllEvalWith (h : Fin 9 → ℚ) (A B : List SiftPt) :
    List (List (ℕ × ℚ × EFloat)) × ℕ :=
  (A.map (fun a => printedRow h a B), (A.filter (fun a => foundPt h a B)).length)

/-- `MatchAll` as called: it first overwrites the caller's homography
(keeping only coefficient 8) and then evaluates. -/
def matchAllEval (h : Fin 9 → ℚ) (A B : List SiftPt) :
    List (List (ℕ × ℚ × EFloat)) × ℕ :=
  matchAllEvalWith (matchAllSetHomography h) A B

/-- The identity homography `h0 = h4 = h8 = 1`, all other coefficients 0. -/
def idHomography : Fin 9 → ℚ := fun i =>
  if i = 0 ∨ i = 4 ∨ i = 8 then 1 else 0

/-- `PrintMatchData`: rounding of a feature position to a pixel coordinate,
`(int)(pos + 0.5)`. -/
def roundPos (q : ℚ) : ℤ :=
  ratTrunc (q + 1/2)

/-- `PrintMatchData`: the buffer offsets written while drawing the match
line from `(x1,y1)` to `(x2,y2)` in a buffer of width `w`:
`len = (int)(fabs(dx) > fabs(dy) ? fabs(dx) : fabs(dy))` and for each
`l < len` the pixel `(int)(y1 + dy*l/len) * w + (int)(x1 + dx*l/len)`. -/
def lineWrites (w : ℤ) (x1 y1 x2 y2 : ℚ) : List ℤ :=
  let dx := x2 - x1
  let dy := y2 - y1
  let len : ℤ := ratTrunc (if |dx| > |dy| then |dx| else |dy|)
  (List.range len.toNat).map (fun (l : ℕ) =>
    ratTrunc (y1 + dy * (l : ℚ) / (len : ℚ)) * w +
      ratTrunc (x1 + dx * (l : ℚ) / (len : ℚ)))

/-- `PrintMatchData`: the line from a point of `sift1` to its matched
candidate `b` is drawn only when the recorded match error is below 5. -/
def renderLine (w : ℤ) (a b : SiftPt) : List ℤ :=
  if a.matchError < 5 then lineWrites w a.xpos a.ypos b.xpos b.ypos else []

/-- `PrintMatchData`: the marker radius
`s = min(x, min(y, min(w-x-2, min(h-y-2, (int)(1.41*scale)))))`. -/
def markerRadius (w h x y : ℤ) (scale : ℚ) : ℤ :=
  min x (min y (min (w - x - 2) (min (h - y - 2) (ratTrunc (141/100 * scale)))))

/-- `PrintMatchData`: the offsets of the first marker pass.  With
`p = y*w + x + (w+1)` it writes `p-k`, `p+k`, `p-k*w`, `p+k*w` for every
`k < s` (this pass stores intensity 0). -/
def pass1Offsets (w x y s : ℤ) : List ℤ :=
  (List.range s.toNat).flatMap (fun (k : ℕ) =>
    let p := y * w + x + (w + 1)
    [p - (k : ℤ), p + (k : ℤ), p - (k : ℤ) * w, p + (k : ℤ) * w])

/-- `PrintMatchData`: the offsets of the second marker pass.  With
`p = y*w + x` it writes `p-k`, `p+k`, `p-k*w`, `p+k*w` for every `k < s`
(this pass stores intensity 255). -/
def pass2Offsets (w x y s : ℤ) : List ℤ :=
  (List.range s.toNat).flatMap (fun (k : ℕ) =>
    let p := y * w + x
    [p - (k : ℤ), p + (k : ℤ), p - (k : ℤ) * w, p + (k : ℤ) * w])

/-- A single store `h_img[o] = v` into the luminance buffer, modelled as a
pointwise update of the buffer function. -/
def setPix (f : ℤ → ℚ) (o : ℤ) (v : ℚ) : ℤ → ℚ :=
  fun x => if x = o then v else f x

/-- A sequence of stores of the same value `v` at a list of offsets,
performed left to right. -/
def writeAll (img : ℤ → ℚ) (offs : List ℤ) (v : ℚ) : ℤ → ℚ :=
  offs.foldl (fun f o => setPix f o v) img

/-- The marker drawing of `PrintMatchData`, in source order: the pass at
`p + (w+1)` writing 0.0 runs first, then the pass at `p` writing 255.0. -/
def drawMarker (img : ℤ → ℚ) (w h : ℤ) (xpos ypos scale : ℚ) : ℤ → ℚ :=
  let x := roundPos xpos
  let y := roundPos ypos
  let s := markerRadius w h x y scale
  writeAll (writeAll img (pass1Offsets w x y s) 0) (pass2Offsets w x y s) 255

/-- Modelled from the spec's words for comparison with `drawMarker`: the
marker drawing in the order the specification states, max-intensity outline
first, then the zero-intensity inset ring offset by one row/column. -/
def drawMarkerSpecOrder (img : ℤ → ℚ) (w h : ℤ) (xpos ypos scale : ℚ) : ℤ → ℚ :=
  let x := roundPos xpos
  let y := roundPos ypos
  let s := markerRadius w h x y scale
  writeAll (writeAll img (pass2Offsets w x y s) 255) (pass1Offsets w x y s) 0

/-- The round-robin slot selection of the multithreaded benchmark:
each work unit draws the next value from the shared atomic counter and
takes it modulo the pool size (`int tid = ctr++ % i`). -/
def acquireSlot (counter w : ℕ) : ℕ :=
  counter % w

/-- The slot indices selected by the first `n` work units, in counter
order. -/
def slotSequence (n w : ℕ) : List ℕ :=
  (List.range n).map (fun k => acquireSlot k w)

/-- How many of the first `n` work units select slot `i`. -/
def slotCount (n w i : ℕ) : ℕ :=
  (List.range n).countP (fun k => acquireSlot k w == i)

/-- Concrete homography for degenerate-denominator scenarios: the caller
passes all zeros, so after `MatchAll`'s overwrite only `h8 = 0` survives
and the denominator is 0 everywhere. -/
def degenH : Fin 9 → ℚ := matchAllSetHomography (fun _ => 0)

/-- Concrete feature point at (1279, 959), matched to candidate 0. -/
def ptA0 : SiftPt := ⟨1279, 959, 1, 0, 0, 0, 0, 0, fun _ => 0⟩

/-- Concrete candidate point at the origin. -/
def ptB0 : SiftPt := ⟨0, 0, 1, 0, 0, 0, 0, 0, fun _ => 0⟩

/-- Concrete feature point at (10, 10), matched to candidate 0 with
recorded match error 1. -/
def ptA1 : SiftPt := ⟨10, 10, 1, 0, 0, 0, 0, 1, fun _ => 0⟩

/-- Concrete candidate point at (12, 10). -/
def ptB1 : SiftPt := ⟨12, 10, 1, 0, 0, 0, 0, 1, fun _ => 0⟩

/-- A concrete luminance buffer holding 7 everywhere. -/
def img7 : ℤ → ℚ := fun _ => 7

/-- Concrete feature point lying outside the buffer (xpos = -2) whose
recorded match error 0 passes the `< 5` line-drawing gate. -/
def ptA2 : SiftPt := ⟨-2, 0, 1, 0, 0, 0, 0, 0, fun _ => 0⟩

/-- Concrete matched point at the origin. -/
def ptB2 : SiftPt := ⟨0, 0, 1, 0, 0, 0, 0, 0, fun _ => 0⟩

/-! ### Round-robin counting lemmas -/

lemma slotCount_of_le_window (w i : ℕ) :
    ∀ r, r ≤ w → slotCount r w i = if i < r then 1 else 0 := by
  intro r
  induction r with
  | zero => intro _; simp [slotCount]
  | succ r ih =>
    intro hr
    have hrw : r < w := lt_of_lt_of_le (Nat.lt_succ_self r) hr
    rw [slotCount, List.range_succ, List.countP_append]
    rw [show (List.range r).countP (fun k => acquireSlot k w == i) = slotCount r w i from rfl]
    rw [ih (le_of_lt hrw)]
    simp only [List.countP_cons, List.countP_nil, acquireSlot, Nat.mod_eq_of_lt hrw,
      beq_iff_eq]
    split_ifs <;> omega

lemma slotCount_window_add (w M i : ℕ) :
    slotCount (w + M) w i = (if i < w then 1 else 0) + slotCount M w i := by
  have h1 : slotCount w w i = if i < w then 1 else 0 :=
    slotCount_of_le_window w i w le_rfl
  rw [slotCount, List.range_add, List.countP_append]
  have h2 : ((fun k => acquireSlot k w == i) ∘ fun x => w + x)
      = (fun k => acquireSlot k w == i) := by
    funext k
    simp [acquireSlot, Nat.add_mod_left]
  rw [List.countP_map, h2]
  rw [show (List.range w).countP (fun k => acquireSlot k w == i) = slotCount w w i from rfl]
  rw [show (List.range M).countP (fun k => acquireSlot k w == i) = slotCount M w i from rfl]
  rw [h1]

lemma slotCount_formula (w i : ℕ) (hw : 1 ≤ w) (hi : i < w) :
    ∀ n, slotCount n w i = n / w + if i < n % w then 1 else 0 := by
  intro n
  induction n using Nat.strong_induction_on with
  | _ n ih =>
    by_cases hn : n < w
    · rw [slotCount_of_le_window w i n (le_of_lt hn), Nat.div_eq_of_lt hn,
        Nat.mod_eq_of_lt hn]
      simp
    · obtain ⟨M, rfl⟩ : ∃ M, n = w + M := ⟨n - w, by omega⟩
      rw [slotCount_window_add, ih M (by omega)]
      have hd : (w + M) / w = M / w + 1 := by
        rw [Nat.add_comm]; exact Nat.add_div_right _ hw
      have hm : (w + M) % w = M % w := Nat.add_mod_left w _
      rw [hd, hm, if_pos hi]
      omega

lemma ceilDiv_of_mod_ne_zero (n w : ℕ) (hw : 1 ≤ w) (h : n % w ≠ 0) :
    (n + w - 1) / w = n / w + 1 := by
  obtain ⟨q, r, hr, rfl⟩ : ∃ q r, r < w ∧ n = w * q + r :=
    ⟨n / w, n % w, Nat.mod_lt _ hw, (Nat.div_add_mod n w).symm⟩
  have hmod : (w * q + r) % w = r := by
    rw [Nat.mul_add_mod, Nat.mod_eq_of_lt hr]
  rw [hmod] at h
  have e1 : w * q + r + w - 1 = w * (q + 1) + (r - 1) := by
    have : w * (q + 1) = w * q + w := by ring
    omega
  rw [e1, Nat.mul_add_div (by omega), Nat.mul_add_div (by omega),
    Nat.div_eq_of_lt (by omega), Nat.div_eq_of_lt (by omega)]

/-- C2: the round-robin selection `counter % w` of the benchmark driver:
every selected index is below the pool size `w`; the `k`-th selection is
`k % w`, i.e. the cyclic order 0,1,…,w-1,0,1,…; each slot `i < w` is
selected `⌊n/w⌋` or `⌈n/w⌉` times over `n` selections; and a pool of 4
slots run for 8 iterations selects exactly 2 iterations per slot in the
order 0,1,2,3,0,1,2,3. -/
theorem roundRobin_fair (w n i k : ℕ) (hw1 : 1 ≤ w) (hw16 : w ≤ 16) :
    acquireSlot k w < w ∧
    (slotSequence n w)[k]? = (if k < n then some (k % w) else none) ∧
    (i < w → slotCount n w i = n / w ∨ slotCount n w i = (n + w - 1) / w) ∧
    slotSequence 8 4 = [0, 1, 2, 3, 0, 1, 2, 3] ∧
    (i < 4 → slotCount 8 4 i = 2) := by
  refine ⟨Nat.mod_lt _ hw1, ?_, ?_, by decide, ?_⟩
  · by_cases hk : k < n
    · rw [slotSequence, List.getElem?_map, List.getElem?_range hk]
      simp [acquireSlot, hk]
    · rw [slotSequence, List.getElem?_map,
        List.getElem?_eq_none (by simpa using not_lt.mp hk)]
      simp [hk]
  · intro hi
    rw [slotCount_formula w i hw1 hi n]
    by_cases him : i < n % w
    · right
      rw [ceilDiv_of_mod_ne_zero n w hw1 (by omega)]
      simp [him]
    · left; simp [him]
  · intro hi
    interval_cases i <;> decide

/-- Witness for C2 at `w = 4`, `n = 8`, `i = 1`, `k = 5`. -/
theorem roundRobin_fair_witness :
    acquireSlot 5 4 < 4 ∧ (slotSequence 8 4)[5]? = some 1 ∧ slotCount 8 4 1 = 2 := by
  obtain ⟨h1, h2, h3, h4, h5⟩ := roundRobin_fair 4 8 1 5 (by decide) (by decide)
  refine ⟨h1, ?_, h5 (by decide)⟩
  simpa using h2

/-! ### EFloat lemmas for the degenerate denominator -/

lemma EFloat.div_fin_zero (a : ℚ) :
    EFloat.div (EFloat.fin a) (EFloat.fin 0) = EFloat.nan ∨
    EFloat.div (EFloat.fin a) (EFloat.fin 0) = EFloat.inf ∨
    EFloat.div (EFloat.fin a) (EFloat.fin 0) = EFloat.ninf := by
  by_cases h0 : a = 0
  · left; simp [EFloat.div, h0]
  · by_cases hp : 0 < a
    · right; left; simp [EFloat.div, h0, hp]
    · right; right; simp [EFloat.div, h0, hp]

lemma pairErr_of_denom_zero (h : Fin 9 → ℚ) (a b : SiftPt)
    (hden : denomQ h a.xpos a.ypos = 0) :
    pairErr h a b = EFloat.inf ∨ pairErr h a b = EFloat.nan := by
  have hpx := EFloat.div_fin_zero (h 0 * a.xpos + h 1 * a.ypos + h 2)
  have hpy := EFloat.div_fin_zero (h 3 * a.xpos + h 4 * a.ypos + h 5)
  rw [pairErr, projXq, projYq, hden]
  rcases hpx with h1 | h1 | h1 <;> rcases hpy with h2 | h2 | h2 <;>
    rw [h1, h2] <;>
    simp [EFloat.sub, EFloat.neg, EFloat.add, EFloat.mul]

lemma EFloat.lt_fin_of_nonfin (x : EFloat) (c : ℚ)
    (hx : x = EFloat.inf ∨ x = EFloat.nan) :
    EFloat.lt x (EFloat.fin c) = false := by
  rcases hx with h | h <;> rw [h] <;> rfl

/-- C1 (amended): `MatchAll` divides by `denom` without a guard; when
`denom = h6*ax + h7*ay + h8` is exactly zero the IEEE division yields an
infinite or NaN squared error, every threshold comparison `err < 100` on it
is false, and the point is therefore never annotated as a confirmed match —
the evaluation is total (no crash), but the error is not always infinite
(it is NaN when the numerator is also zero) and the non-finite value still
reaches the printed diagnostic row of the recorded match. -/
theorem matchAll_denom_zero_rejected (h : Fin 9 → ℚ) (a b : SiftPt) (j : ℕ)
    (hden : denomQ h a.xpos a.ypos = 0) :
    (pairErr h a b = EFloat.inf ∨ pairErr h a b = EFloat.nan) ∧
    EFloat.lt (pairErr h a b) (EFloat.fin 100) = false ∧
    annMark a.matchIdx j (pairErr h a b) ≠ Ann.star := by
  have he := pairErr_of_denom_zero h a b hden
  have hlt := EFloat.lt_fin_of_nonfin _ 100 he
  refine ⟨he, hlt, ?_⟩
  rw [annMark]
  split_ifs with hc h1 h2
  · exact absurd hc.2 (by simp [hlt])
  · simp
  · simp
  · simp

/-- Witness for C1 (amended) at the degenerate homography `h8 = 0` and the
point (10, 10). -/
theorem matchAll_denom_zero_rejected_witness :
    EFloat.lt (pairErr degenH ptA1 ptB1) (EFloat.fin 100) = false ∧
    annMark ptA1.matchIdx 0 (pairErr degenH ptA1 ptB1) ≠ Ann.star := by
  have hden : denomQ degenH ptA1.xpos ptA1.ypos = 0 := by
    simp [denomQ, degenH, matchAllSetHomography, ptA1]
  obtain ⟨h1, h2, h3⟩ := matchAll_denom_zero_rejected degenH ptA1 ptB1 0 hden
  exact ⟨h2, h3⟩

/-- C1 counterexample: with the overwritten homography whose kept
coefficient `h8` is 0, the point (1279, 959) has `denom = 0` exactly, yet
its computed squared error is NaN — not an infinite error — and the NaN
error value still appears in the diagnostic row printed for its recorded
match, so the claim's "treats the point as having infinite error … never
propagating NaN into its output" fails on the code. -/
theorem matchAll_denom_zero_nan_output :
    denomQ degenH ptA0.xpos ptA0.ypos = 0 ∧
    pairErr degenH ptA0 ptB0 = EFloat.nan ∧
    EFloat.nan ≠ EFloat.inf ∧
    (printedRow degenH ptA0 [ptB0]).map (fun c => (c.1, c.2.2)) = [(0, EFloat.nan)] := by
  have hd : denomQ degenH ptA0.xpos ptA0.ypos = 0 := by
    simp [denomQ, degenH, matchAllSetHomography, ptA0]
  have hnx : degenH 0 * ptA0.xpos + degenH 1 * ptA0.ypos + degenH 2 = 0 := by
    simp [degenH, matchAllSetHomography, ptA0]
  have hny : degenH 3 * ptA0.xpos + degenH 4 * ptA0.ypos + degenH 5 = 0 := by
    simp [degenH, matchAllSetHomography, ptA0]
  have hpe : pairErr degenH ptA0 ptB0 = EFloat.nan := by
    rw [pairErr, projXq, projYq, hd, hnx, hny]
    simp [EFloat.div, EFloat.sub, EFloat.neg, EFloat.add, EFloat.mul]
  refine ⟨hd, hpe, by simp, ?_⟩
  rw [printedRow, printedRowAux]
  rw [hpe]
  simp [printedRowAux, ptA0, EFloat.lt]

/-! ### Classification of the recorded match -/

lemma annRowAux_getElem (h : Fin 9 → ℚ) (a : SiftPt) :
    ∀ (B : List SiftPt) (j m : ℕ),
      (annRowAux h a j B)[m]? =
        B[m]?.map (fun b => annMark a.matchIdx (j + m) (pairErr h a b)) := by
  intro B
  induction B with
  | nil => intro j m; simp [annRowAux]
  | cons b bs ih =>
    intro j m
    cases m with
    | zero => simp [annRowAux]
    | succ m =>
      rw [show j + (m + 1) = (j + 1) + m from by omega]
      simpa [annRowAux] using ih (j + 1) m

/-- C6: for a point `a` whose recorded match index is `m` with candidate
`b = setB[m]`, `MatchAll` computes the squared geometric error
`err = (projX - b.x)² + (projY - b.y)²` from the projection through the
homography (`denom = h6*ax+h7*ay+h8`, `projX = (h0*ax+h1*ay+h2)/denom`,
`projY = (h3*ax+h4*ay+h5)/denom`), and annotates the recorded pair as a
confirmed match (star) exactly when `err < 100.0`, and as rejected (dash)
otherwise. -/
theorem matchAll_classification (h : Fin 9 → ℚ) (a : SiftPt) (B : List SiftPt)
    (m : ℕ) (b : SiftPt) (hb : B[m]? = some b) (hm : a.matchIdx = (m : ℤ)) :
    pairErr h a b =
      EFloat.add
        (EFloat.mul (EFloat.sub (projXq h a.xpos a.ypos) (EFloat.fin b.xpos))
          (EFloat.sub (projXq h a.xpos a.ypos) (EFloat.fin b.xpos)))
        (EFloat.mul (EFloat.sub (projYq h a.xpos a.ypos) (EFloat.fin b.ypos))
          (EFloat.sub (projYq h a.xpos a.ypos) (EFloat.fin b.ypos))) ∧
    ((annRow h a B)[m]? = some Ann.star ↔
      EFloat.lt (pairErr h a b) (EFloat.fin 100) = true) ∧
    ((annRow h a B)[m]? = some Ann.dash ↔
      EFloat.lt (pairErr h a b) (EFloat.fin 100) = false) := by
  refine ⟨rfl, ?_, ?_⟩ <;>
  · rw [annRow, annRowAux_getElem h a B 0 m, hb]
    simp only [Option.map_some', Nat.zero_add, annMark, hm]
    cases hlt : EFloat.lt (pairErr h a b) (EFloat.fin 100) <;> simp [hlt]

/-- Witness for C6: with the identity homography, the point (10,10)
matched to candidate 0 at (12,10) has squared error 4 < 100 and is
annotated as a confirmed match. -/
theorem matchAll_classification_witness :
    (annRow idHomography ptA1 [ptB1])[0]? = some Ann.star := by
  have hd : denomQ idHomography ptA1.xpos ptA1.ypos = 1 := by
    simp [denomQ, idHomography, ptA1]
  have hnx : idHomography 0 * ptA1.xpos + idHomography 1 * ptA1.ypos + idHomography 2
      = 10 := by
    simp [idHomography, ptA1]
  have hny : idHomography 3 * ptA1.xpos + idHomography 4 * ptA1.ypos + idHomography 5
      = 10 := by
    simp [idHomography, ptA1]
  have hpe : pairErr idHomography ptA1 ptB1 = EFloat.fin 4 := by
    rw [pairErr, projXq, projYq, hd, hnx, hny]
    simp [EFloat.div, EFloat.sub, EFloat.neg, EFloat.add, EFloat.mul, ptB1]
    norm_num
  have hlt : EFloat.lt (pairErr idHomography ptA1 ptB1) (EFloat.fin 100) = true := by
    rw [hpe]
    simp only [EFloat.lt, decide_eq_true_eq]
    norm_num
  exact (matchAll_classification idHomography ptA1 [ptB1] 0 ptB1 rfl rfl).2.1.mpr hlt

/-- C7: the correspondence evaluation is a deterministic (pure) function of
the feature sets and the homography: two runs on identical inputs produce
identical printed rows, error values and found-counts. -/
theorem matchAll_deterministic (h1 h2 : Fin 9 → ℚ) (A1 A2 B1 B2 : List SiftPt)
    (hh : h1 = h2) (hA : A1 = A2) (hB : B1 = B2) :
    matchAllEval h1 A1 B1 = matchAllEval h2 A2 B2 := by
  rw [hh, hA, hB]

/-- Witness for C7 at concrete inputs. -/
theorem matchAll_deterministic_witness :
    matchAllEval idHomography [ptA1] [ptB1] = matchAllEval idHomography [ptA1] [ptB1] :=
  matchAll_deterministic idHomography idHomography [ptA1] [ptA1] [ptB1] [ptB1]
    rfl rfl rfl

/-- C8: projecting any source position through the identity homography
(h0 = h4 = h8 = 1, all other coefficients 0) returns exactly the source
position (the arithmetic is exact in the model, so "up to floating-point
epsilon" is exact equality here). -/
theorem projection_identity (ax ay : ℚ) :
    projXq idHomography ax ay = EFloat.fin ax ∧
    projYq idHomography ax ay = EFloat.fin ay := by
  have hd : denomQ idHomography ax ay = 1 := by
    simp [denomQ, idHomography]
  have hnx : idHomography 0 * ax + idHomography 1 * ay + idHomography 2 = ax := by
    simp [idHomography]
  have hny : idHomography 3 * ax + idHomography 4 * ay + idHomography 5 = ay := by
    simp [idHomography]
  constructor
  · rw [projXq, hd, hnx]
    simp [EFloat.div]
  · rw [projYq, hd, hny]
    simp [EFloat.div]

/-- C9: `MatchAll` unconditionally overwrites the caller's homography
coefficients 0..7 with the fixed values (-1, 0, 1279, 0, -1, 959, 0, 0)
before any evaluation, keeping only coefficient 8; the evaluation then
runs on the overwritten homography, so the fitted transform passed by the
caller is discarded except for its last coefficient. -/
theorem matchAll_homography_overwrite (h : Fin 9 → ℚ) (A B : List SiftPt) :
    matchAllSetHomography h 0 = -1 ∧
    matchAllSetHomography h 1 = 0 ∧
    matchAllSetHomography h 2 = 1279 ∧
    matchAllSetHomography h 3 = 0 ∧
    matchAllSetHomography h 4 = -1 ∧
    matchAllSetHomography h 5 = 959 ∧
    matchAllSetHomography h 6 = 0 ∧
    matchAllSetHomography h 7 = 0 ∧
    matchAllSetHomography h 8 = h 8 ∧
    matchAllEval h A B = matchAllEvalWith (matchAllSetHomography h) A B := by
  refine ⟨?_, ?_, ?_, ?_, ?_, ?_, ?_, ?_, ?_, rfl⟩ <;> simp [matchAllSetHomography]

/-! ### Renderer lemmas -/

lemma ratTrunc_nonneg_eq_floor (q : ℚ) (h : 0 ≤ q) : ratTrunc q = ⌊q⌋ :=
  if_pos h

lemma ratTrunc_bounds (q : ℚ) (n : ℤ) (h0 : 0 ≤ q) (hn : q < (n : ℚ)) :
    0 ≤ ratTrunc q ∧ ratTrunc q < n := by
  rw [ratTrunc_nonneg_eq_floor q h0]
  exact ⟨Int.floor_nonneg.mpr h0, Int.floor_lt.mpr hn⟩

lemma rowcol_bound (w h r c : ℤ) (hr0 : 0 ≤ r) (hrh : r < h) (hc0 : 0 ≤ c)
    (hcw : c < w) : 0 ≤ r * w + c ∧ r * w + c < w * h := by
  have hw : 0 < w := lt_of_le_of_lt hc0 hcw
  constructor
  · have := mul_nonneg hr0 (le_of_lt hw)
    omega
  · have h1 : r * w + c < (r + 1) * w := by nlinarith
    have h2 : (r + 1) * w ≤ h * w := by
      apply mul_le_mul_of_nonneg_right _ (le_of_lt hw)
      omega
    nlinarith

lemma interp_mem (a b W t : ℚ) (ha0 : 0 ≤ a) (haW : a < W) (hb0 : 0 ≤ b)
    (hbW : b < W) (ht0 : 0 ≤ t) (ht1 : t ≤ 1) :
    0 ≤ a + (b - a) * t ∧ a + (b - a) * t < W := by
  constructor
  · nlinarith [mul_nonneg ha0 (sub_nonneg.mpr ht1), mul_nonneg hb0 ht0]
  · nlinarith [mul_nonneg (sub_nonneg.mpr (le_of_lt haW)) (sub_nonneg.mpr ht1),
      mul_nonneg (sub_nonneg.mpr (le_of_lt hbW)) ht0]

/-- C10: for a matched pair whose position delta satisfies
`max(|dx|, |dy|) < 1`, the integer step count `len` truncates to 0, the
line-drawing loop runs zero iterations and writes nothing, so the
interpolation divisions `dx*l/len`, `dy*l/len` are never evaluated with
`len = 0`. -/
theorem lineWrites_subpixel_empty (w : ℤ) (x1 y1 x2 y2 : ℚ)
    (hx : |x2 - x1| < 1) (hy : |y2 - y1| < 1) :
    lineWrites w x1 y1 x2 y2 = [] := by
  have hge : (0:ℚ) ≤ if |x2 - x1| > |y2 - y1| then |x2 - x1| else |y2 - y1| := by
    split_ifs <;> exact abs_nonneg _
  have hlt1 : (if |x2 - x1| > |y2 - y1| then |x2 - x1| else |y2 - y1|) < 1 := by
    split_ifs <;> assumption
  have hzero :
      ratTrunc (if |x2 - x1| > |y2 - y1| then |x2 - x1| else |y2 - y1|) = 0 := by
    rw [ratTrunc_nonneg_eq_floor _ hge]
    exact Int.floor_eq_zero_iff.mpr ⟨hge, hlt1⟩
  simp only [lineWrites, hzero]
  rfl

/-- Witness for C10: endpoints half a pixel apart draw nothing. -/
theorem lineWrites_subpixel_empty_witness :
    lineWrites 100 10 10 (21/2) 10 = [] :=
  lineWrites_subpixel_empty 100 10 10 (21/2) 10
    (by rw [abs_sub_lt_iff]; constructor <;> norm_num)
    (by rw [abs_sub_lt_iff]; constructor <;> norm_num)

/-- C3 (amended): when both the source point and its matched point lie
inside the buffer bounds, every pixel offset written by the match-line
loop lies in [0, w*h).  The code performs no explicit clamping, so for
out-of-bounds endpoints the guarantee fails (see the counterexample). -/
theorem lineWrites_in_bounds (w h : ℤ) (x1 y1 x2 y2 : ℚ)
    (hx1 : 0 ≤ x1) (hx1w : x1 < (w:ℚ)) (hx2 : 0 ≤ x2) (hx2w : x2 < (w:ℚ))
    (hy1 : 0 ≤ y1) (hy1h : y1 < (h:ℚ)) (hy2 : 0 ≤ y2) (hy2h : y2 < (h:ℚ)) :
    ∀ o ∈ lineWrites w x1 y1 x2 y2, 0 ≤ o ∧ o < w * h := by
  intro o ho
  simp only [lineWrites, List.mem_map, List.mem_range] at ho
  obtain ⟨l, hl, rfl⟩ := ho
  set len := ratTrunc (if |x2 - x1| > |y2 - y1| then |x2 - x1| else |y2 - y1|)
    with hlendef
  have hlZ : (l : ℤ) < len := by omega
  have hlen0 : (0 : ℤ) < len := by omega
  have hlenQ : (0 : ℚ) < (len : ℚ) := by exact_mod_cast hlen0
  have ht0 : (0 : ℚ) ≤ (l : ℚ) / (len : ℚ) := by positivity
  have ht1 : (l : ℚ) / (len : ℚ) ≤ 1 := by
    rw [div_le_one hlenQ]
    exact_mod_cast le_of_lt hlZ
  have hxb := interp_mem x1 x2 w ((l : ℚ) / (len : ℚ)) hx1 hx1w hx2 hx2w ht0 ht1
  have hyb := interp_mem y1 y2 h ((l : ℚ) / (len : ℚ)) hy1 hy1h hy2 hy2h ht0 ht1
  rw [← mul_div_assoc] at hxb hyb
  have hcx := ratTrunc_bounds _ w hxb.1 hxb.2
  have hcy := ratTrunc_bounds _ h hyb.1 hyb.2
  exact rowcol_bound w h _ _ hcy.1 hcy.2 hcx.1 hcx.2

lemma lineWrites_eval_neg : lineWrites 100 (-2) 0 0 0 = [-2, -1] := by
  simp only [lineWrites]
  norm_num [ratTrunc]
  rw [show Int.toNat 2 = 2 from rfl, show List.range 2 = [0, 1] from rfl]
  norm_num

lemma lineWrites_eval_pos : lineWrites 100 10 10 12 10 = [1010, 1011] := by
  simp only [lineWrites]
  norm_num [ratTrunc]
  rw [show Int.toNat 2 = 2 from rfl, show List.range 2 = [0, 1] from rfl]
  norm_num

/-- C3 counterexample: a feature point lying outside the buffer
(xpos = -2, match error 0 < 5, so the line gate passes) makes the
line-drawing loop write the offset -2, which is outside [0, 100*100):
the code has no clamping or skipping of out-of-bounds line coordinates. -/
theorem lineWrites_out_of_bounds :
    (-2 : ℤ) ∈ renderLine 100 ptA2 ptB2 ∧ ¬ (0 ≤ (-2 : ℤ) ∧ (-2 : ℤ) < 100 * 100) := by
  constructor
  · rw [renderLine, if_pos (show ptA2.matchError < 5 by norm_num [ptA2])]
    show (-2 : ℤ) ∈ lineWrites 100 (-2) 0 0 0
    rw [lineWrites_eval_neg]
    simp
  · norm_num

/-- Witness for C3 (amended): the in-bounds endpoints (10,10) and (12,10)
in a 100×100 buffer write offset 1010, which lies in [0, 100*100). -/
theorem lineWrites_in_bounds_witness :
    (1010 : ℤ) ∈ lineWrites 100 10 10 12 10 ∧
    0 ≤ (1010 : ℤ) ∧ (1010 : ℤ) < 100 * 100 := by
  have hm : (1010 : ℤ) ∈ lineWrites 100 10 10 12 10 := by
    rw [lineWrites_eval_pos]
    simp
  exact ⟨hm, lineWrites_in_bounds 100 100 10 10 12 10 (by norm_num) (by norm_num)
    (by norm_num) (by norm_num) (by norm_num) (by norm_num) (by norm_num) (by norm_num)
    1010 hm⟩

/-- C4: for every feature point whose rounded position (x, y) lies inside
the image, the marker radius computed by the renderer equals
min(x, y, w-x-2, h-y-2, ⌊1.41*scale⌋) (truncation and floor agree on the
nonnegative scales of the data model), and under this radius every pixel
offset written by the two marker passes lies in [0, w*h): the marker never
crosses the buffer boundary. -/
theorem marker_in_bounds (w h : ℤ) (xpos ypos scale : ℚ)
    (hx0 : 0 ≤ roundPos xpos) (hxw : roundPos xpos < w)
    (hy0 : 0 ≤ roundPos ypos) (hyh : roundPos ypos < h) :
    (0 ≤ scale →
      markerRadius w h (roundPos xpos) (roundPos ypos) scale =
        min (roundPos xpos) (min (roundPos ypos)
          (min (w - roundPos xpos - 2) (min (h - roundPos ypos - 2)
            ⌊(141 : ℚ) / 100 * scale⌋)))) ∧
    (∀ o ∈ pass1Offsets w (roundPos xpos) (roundPos ypos)
          (markerRadius w h (roundPos xpos) (roundPos ypos) scale) ++
        pass2Offsets w (roundPos xpos) (roundPos ypos)
          (markerRadius w h (roundPos xpos) (roundPos ypos) scale),
      0 ≤ o ∧ o < w * h) := by
  set x := roundPos xpos with hxdef
  set y := roundPos ypos with hydef
  set s := markerRadius w h x y scale with hsdef
  constructor
  · intro hscale
    rw [hsdef, markerRadius,
      ratTrunc_nonneg_eq_floor ((141 : ℚ) / 100 * scale) (by positivity)]
  · have hsx : s ≤ x := min_le_left _ _
    have hsy : s ≤ y := le_trans (min_le_right _ _) (min_le_left _ _)
    have hsw : s ≤ w - x - 2 :=
      le_trans (min_le_right _ _) (le_trans (min_le_right _ _) (min_le_left _ _))
    have hsh : s ≤ h - y - 2 :=
      le_trans (min_le_right _ _)
        (le_trans (min_le_right _ _) (le_trans (min_le_right _ _) (min_le_left _ _)))
    intro o ho
    rcases List.mem_append.mp ho with hp | hp
    · simp only [pass1Offsets, List.mem_flatMap, List.mem_range, List.mem_cons,
        List.mem_singleton] at hp
      obtain ⟨k, hk, hcase⟩ := hp
      have hks : (k : ℤ) < s := by omega
      have hs1 : 1 ≤ s := by omega
      rcases hcase with rfl | rfl | rfl | rfl | hfalse
      · rw [show y * w + x + (w + 1) - (k : ℤ) = (y + 1) * w + (x + 1 - (k : ℤ)) by ring]
        exact rowcol_bound w h _ _ (by omega) (by omega) (by omega) (by omega)
      · rw [show y * w + x + (w + 1) + (k : ℤ) = (y + 1) * w + (x + 1 + (k : ℤ)) by ring]
        exact rowcol_bound w h _ _ (by omega) (by omega) (by omega) (by omega)
      · rw [show y * w + x + (w + 1) - (k : ℤ) * w = (y + 1 - (k : ℤ)) * w + (x + 1) by ring]
        exact rowcol_bound w h _ _ (by omega) (by omega) (by omega) (by omega)
      · rw [show y * w + x + (w + 1) + (k : ℤ) * w = (y + 1 + (k : ℤ)) * w + (x + 1) by ring]
        exact rowcol_bound w h _ _ (by omega) (by omega) (by omega) (by omega)
      · exact absurd hfalse (List.not_mem_nil _)
    · simp only [pass2Offsets, List.mem_flatMap, List.mem_range, List.mem_cons,
        List.mem_singleton] at hp
      obtain ⟨k, hk, hcase⟩ := hp
      have hks : (k : ℤ) < s := by omega
      have hs1 : 1 ≤ s := by omega
      rcases hcase with rfl | rfl | rfl | rfl | hfalse
      · rw [show y * w + x - (k : ℤ) = y * w + (x - (k : ℤ)) by ring]
        exact rowcol_bound w h _ _ (by omega) (by omega) (by omega) (by omega)
      · rw [show y * w + x + (k : ℤ) = y * w + (x + (k : ℤ)) by ring]
        exact rowcol_bound w h _ _ (by omega) (by omega) (by omega) (by omega)
      · rw [show y * w + x - (k : ℤ) * w = (y - (k : ℤ)) * w + x by ring]
        exact rowcol_bound w h _ _ (by omega) (by omega) (by omega) (by omega)
      · rw [show y * w + x + (k : ℤ) * w = (y + (k : ℤ)) * w + x by ring]
        exact rowcol_bound w h _ _ (by omega) (by omega) (by omega) (by omega)
      · exact absurd hfalse (List.not_mem_nil _)

/-- Witness for C4 at a 100×100 buffer, point (50,50), scale 2: the
written offset 5049 lies in [0, 10000). -/
theorem marker_in_bounds_witness :
    0 ≤ (5049 : ℤ) ∧ (5049 : ℤ) < 100 * 100 := by
  have hr : roundPos (50 : ℚ) = 50 := by norm_num [roundPos, ratTrunc]
  have hs : markerRadius 100 100 (50 : ℤ) (50 : ℤ) 2 = 2 := by
    rw [markerRadius]
    norm_num [ratTrunc, min_def]
  apply (marker_in_bounds 100 100 50 50 2 (by rw [hr]; norm_num) (by rw [hr]; norm_num)
    (by rw [hr]; norm_num) (by rw [hr]; norm_num)).2 5049
  rw [hr, hs]
  decide

lemma writeAll_apply (offs : List ℤ) (img : ℤ → ℚ) (v : ℚ) (o : ℤ) :
    writeAll img offs v o = if o ∈ offs then v else img o := by
  induction offs generalizing img with
  | nil => simp [writeAll]
  | cons a rest ih =>
    have hstep : writeAll img (a :: rest) v = writeAll (setPix img a v) rest v := rfl
    rw [hstep, ih]
    by_cases hmem : o ∈ rest
    · simp [hmem]
    · by_cases hoa : o = a
      · simp [hmem, hoa, setPix]
      · simp [hmem, hoa, setPix]

/-- C5 (amended): the two-pass marker draw of the renderer runs the
zero-intensity pass (radius s, offset by one row/column) FIRST and the
max-intensity pass at radius s SECOND, so wherever the two passes overlap
the max intensity 255 ends on top; pixels touched only by the offset pass
hold 0, and untouched pixels keep their previous value. -/
theorem marker_draw_order (img : ℤ → ℚ) (w h : ℤ) (xpos ypos scale : ℚ) (o : ℤ) :
    (o ∈ pass2Offsets w (roundPos xpos) (roundPos ypos)
        (markerRadius w h (roundPos xpos) (roundPos ypos) scale) →
      drawMarker img w h xpos ypos scale o = 255) ∧
    (o ∉ pass2Offsets w (roundPos xpos) (roundPos ypos)
        (markerRadius w h (roundPos xpos) (roundPos ypos) scale) →
      o ∈ pass1Offsets w (roundPos xpos) (roundPos ypos)
        (markerRadius w h (roundPos xpos) (roundPos ypos) scale) →
      drawMarker img w h xpos ypos scale o = 0) ∧
    (o ∉ pass2Offsets w (roundPos xpos) (roundPos ypos)
        (markerRadius w h (roundPos xpos) (roundPos ypos) scale) →
      o ∉ pass1Offsets w (roundPos xpos) (roundPos ypos)
        (markerRadius w h (roundPos xpos) (roundPos ypos) scale) →
      drawMarker img w h xpos ypos scale o = img o) := by
  simp only [drawMarker]
  rw [writeAll_apply, writeAll_apply]
  refine ⟨fun h2 => ?_, fun h2 h1 => ?_, fun h2 h1 => ?_⟩
  · rw [if_pos h2]
  · rw [if_neg h2, if_pos h1]
  · rw [if_neg h2, if_neg h1]

/-- Witness for C5 (amended): the pixel 5049, touched by the second
(max-intensity) pass, holds 255 after the marker draw at (50,50). -/
theorem marker_draw_order_witness :
    drawMarker img7 100 100 50 50 2 5049 = 255 := by
  have hr : roundPos (50 : ℚ) = 50 := by norm_num [roundPos, ratTrunc]
  have hs : markerRadius 100 100 (50 : ℤ) (50 : ℤ) 2 = 2 := by
    rw [markerRadius]
    norm_num [ratTrunc, min_def]
  apply (marker_draw_order img7 100 100 50 50 2 5049).1
  rw [hr, hs]
  decide

/-- C5 counterexample: at the point (50,50) with scale 2 in a 100×100
buffer, the pixel 5150 is touched by both marker passes.  The source
order (zero ring first, then max outline) leaves 255 there, while the
order the claim states (max outline first, then zero ring) would leave 0:
the code's pass order is the reverse of the claimed one. -/
theorem marker_draw_order_counterexample :
    drawMarker img7 100 100 50 50 2 5150 = 255 ∧
    drawMarkerSpecOrder img7 100 100 50 50 2 5150 = 0 := by
  have hr : roundPos (50 : ℚ) = 50 := by norm_num [roundPos, ratTrunc]
  have hs : markerRadius 100 100 (50 : ℤ) (50 : ℤ) 2 = 2 := by
    rw [markerRadius]
    norm_num [ratTrunc, min_def]
  constructor
  · simp only [drawMarker, hr, hs]
    rw [writeAll_apply, if_pos (by decide)]
  · simp only [drawMarkerSpecOrder, hr, hs]
    rw [writeAll_apply, if_pos (by decide)]
